import Mathlib

/-!
Verification of the json-viewer compute core.

This file gives a shallow embedding, in Lean 4, of the parts of the
json-viewer repository that the verified properties talk about:

* the node model and tree construction (`createJsonNode`,
  `src/lib/json-utils.ts`),
* JSON reconstruction (`reconstructJsonFromNode`),
* substring search, synchronous, chunked-asynchronous and worker
  variants (`searchInJson`, `searchInJsonAsync`, `handleRegularSearch`,
  `handleRegularSearchStream`),
* the search dispatchers (`searchInJsonAsync` JSONPath branch,
  `handleSearch`, `handleSearchRawJson`, `handleSearchRawJsonStream`),
* the worker manager admission check (`canAcceptNewOperation`,
  `estimateOperationMemory`),
* the LRU metadata cache (`LRUCache.get` / `LRUCache.set`),
* the pure tree transforms (`toggleNodeAtPath`, `deepCopyJsonNode`).

Modelling conventions, applied throughout:

* JavaScript objects that survived `JSON.parse` are modelled as
  insertion-ordered association lists `List (String × JsonValue)`;
  property assignment `obj[k] = v` is `objAssign` (update-in-place when
  the key exists, append otherwise), matching JS semantics.
* The `parent` back-edge of `JsonNode` is omitted: it is a non-owning
  reference that creates a cyclic graph and carries no information that
  is not recomputable from the structure; no verified property reads it.
* `PROGRESS` worker messages and the cooperative `setTimeout` chunking
  are omitted from the models: chunk boundaries only decide when a
  progress message is posted, never which nodes are processed or which
  result/terminal messages are sent, and no verified property mentions
  progress.  Each model notes the omission where it applies.
* JS truthiness tests on strings (`if (key)`, `if (firstKey)`) are
  modelled as the conjunction of presence and being nonempty.
* `Date.now()` timestamps are explicit `Int` arguments.
* JS numbers used for memory accounting are modelled as `Rat`
  (the `0.5 *` estimate is fractional).
-/

/-- JsonValue from `src/types/json.ts`: the recursive tagged union
string | number | boolean | null | object | array.  Numbers are
modelled as rationals; objects as insertion-ordered association
lists (the form `JSON.parse` produces). -/
inductive JsonValue where
  | str (s : String)
  | num (q : Rat)
  | boolean (b : Bool)
  | null
  | obj (entries : List (String × JsonValue))
  | arr (items : List JsonValue)

/-- The `type` tag of a node, the union
"object" | "array" | "string" | "number" | "boolean" | "null". -/
inductive JsonNodeType where
  | object
  | array
  | string
  | number
  | boolean
  | null
  deriving DecidableEq

/-- getJsonNodeType from `src/lib/json-utils.ts`: null check, then
array check, then object check, then typeof. -/
def getJsonNodeType (v : JsonValue) : JsonNodeType :=
  match v with
  | .null => .null
  | .arr _ => .array
  | .obj _ => .object
  | .str _ => .string
  | .num _ => .number
  | .boolean _ => .boolean

/-- JsonNode from `src/types/json.ts`: key (absent only for the
synthetic root), original value, type tag, path from root, depth,
expansion flag, sibling index, and children (present iff the node was
built from an object or array).  The `parent` back-edge is omitted
(see the header). -/
inductive JsonNode where
  | mk (key : Option String) (value : JsonValue) (type : JsonNodeType)
      (path : List String) (depth : Nat) (isExpanded : Bool)
      (index : Option Nat) (children : Option (List JsonNode))

def JsonNode.key : JsonNode → Option String
  | .mk k _ _ _ _ _ _ _ => k

def JsonNode.value : JsonNode → JsonValue
  | .mk _ v _ _ _ _ _ _ => v

def JsonNode.type : JsonNode → JsonNodeType
  | .mk _ _ t _ _ _ _ _ => t

def JsonNode.path : JsonNode → List String
  | .mk _ _ _ p _ _ _ _ => p

def JsonNode.depth : JsonNode → Nat
  | .mk _ _ _ _ d _ _ _ => d

def JsonNode.isExpanded : JsonNode → Bool
  | .mk _ _ _ _ _ e _ _ => e

def JsonNode.index : JsonNode → Option Nat
  | .mk _ _ _ _ _ _ i _ => i

def JsonNode.children : JsonNode → Option (List JsonNode)
  | .mk _ _ _ _ _ _ _ c => c

/-- The path a freshly created node receives:
`path: key ? [...path, key] : path`.  JS truthiness makes both an
absent key and the empty-string key keep the parent's path. -/
def childNodePath (key : Option String) (path : List String) : List String :=
  match key with
  | some k => if k ≠ "" then path ++ [k] else path
  | none => path

mutual

/-- createJsonNode from `src/lib/json-utils.ts` (and, with identical
node construction, createJsonNodeWithProgress in
`src/lib/json-worker.ts`, whose extra progress posts are omitted):
builds the decorated node for `value`, with `isExpanded = depth < 2`,
object children in entry order and array children keyed by the decimal
index. -/
def createJsonNode (value : JsonValue) (key : Option String)
    (path : List String) (depth : Nat) (index : Option Nat) : JsonNode :=
  let type := getJsonNodeType value
  let nodePath := childNodePath key path
  let children : Option (List JsonNode) :=
    match value with
    | .obj entries => some (createObjChildren entries nodePath depth 0)
    | .arr items => some (createArrChildren items nodePath depth 0)
    | _ => none
  .mk key value type nodePath depth (decide (depth < 2)) index children

/-- The `Object.entries(value).map((...), idx)` loop of createJsonNode. -/
def createObjChildren (entries : List (String × JsonValue))
    (path : List String) (depth : Nat) (idx : Nat) : List JsonNode :=
  match entries with
  | [] => []
  | (k, v) :: rest =>
      createJsonNode v (some k) path (depth + 1) (some idx)
        :: createObjChildren rest path depth (idx + 1)

/-- The `value.map((childValue, idx) => ...)` loop of createJsonNode,
with `key = idx.toString()`. -/
def createArrChildren (items : List JsonValue)
    (path : List String) (depth : Nat) (idx : Nat) : List JsonNode :=
  match items with
  | [] => []
  | v :: rest =>
      createJsonNode v (some (toString idx)) path (depth + 1) (some idx)
        :: createArrChildren rest path depth (idx + 1)

end

/-- JS property assignment `obj[k] = v` on an insertion-ordered object:
an existing key is updated in place, a new key is appended. -/
def objAssign (entries : List (String × JsonValue)) (k : String)
    (v : JsonValue) : List (String × JsonValue) :=
  match entries with
  | [] => [(k, v)]
  | (k0, v0) :: rest =>
      if k0 = k then (k0, v) :: rest else (k0, v0) :: objAssign rest k v

mutual

/-- reconstructJsonFromNode from `src/lib/json-utils.ts`: object nodes
rebuild `{}` by assigning each child with a defined key, array nodes
map over children, all other nodes return the stored value. -/
def reconstructJsonFromNode : JsonNode → JsonValue
  | .mk _ _ .object _ _ _ _ (some cs) => .obj (reconstructObjFold cs [])
  | .mk _ _ .array _ _ _ _ (some cs) => .arr (reconstructArrMap cs)
  | .mk _ v _ _ _ _ _ _ => v

/-- The `node.children.forEach(child => { if (child.key !== undefined)
obj[child.key] = reconstructJsonFromNode(child) })` loop, with the
object under construction as accumulator. -/
def reconstructObjFold : List JsonNode → List (String × JsonValue) →
    List (String × JsonValue)
  | [], acc => acc
  | .mk (some k) v t p d e i c :: rest, acc =>
      reconstructObjFold rest
        (objAssign acc k (reconstructJsonFromNode (.mk (some k) v t p d e i c)))
  | .mk none _ _ _ _ _ _ _ :: rest, acc => reconstructObjFold rest acc

/-- The `node.children.map(child => reconstructJsonFromNode(child))`
branch for array nodes. -/
def reconstructArrMap : List JsonNode → List JsonValue
  | [] => []
  | c :: rest => reconstructJsonFromNode c :: reconstructArrMap rest

end

/-- Pairwise-distinct key check for one object level. -/
def keysNodupB : List String → Bool
  | [] => true
  | k :: rest => (!rest.contains k) && keysNodupB rest

mutual

/-- A JsonValue all of whose objects have pairwise-distinct keys —
exactly the values `JSON.parse` can produce. -/
def uniqueKeys : JsonValue → Bool
  | .obj entries => keysNodupB (entries.map Prod.fst) && uniqueKeysEntries entries
  | .arr items => uniqueKeysList items
  | _ => true

def uniqueKeysEntries : List (String × JsonValue) → Bool
  | [] => true
  | (_, v) :: rest => uniqueKeys v && uniqueKeysEntries rest

def uniqueKeysList : List JsonValue → Bool
  | [] => true
  | v :: rest => uniqueKeys v && uniqueKeysList rest

end

mutual

/-- A JsonValue none of whose objects uses the empty string as a key. -/
def keysNonempty : JsonValue → Bool
  | .obj entries =>
      (entries.map Prod.fst).all (fun k => k ≠ "") && keysNonemptyEntries entries
  | .arr items => keysNonemptyList items
  | _ => true

def keysNonemptyEntries : List (String × JsonValue) → Bool
  | [] => true
  | (_, v) :: rest => keysNonempty v && keysNonemptyEntries rest

def keysNonemptyList : List JsonValue → Bool
  | [] => true
  | v :: rest => keysNonempty v && keysNonemptyList rest

end

/-- JS `toLowerCase()` modelled character-wise; no verified property
depends on locale-specific casing. -/
def toLowerStr (s : String) : String := ⟨s.data.map Char.toLower⟩

/-- Whitespace for the trim model. -/
def isWsChar (c : Char) : Bool :=
  c = ' ' || c = '\t' || c = '\n' || c = '\r'

/-- JS `s.trim()`: strip leading and trailing whitespace. -/
def jsTrim (s : String) : String :=
  ⟨((s.data.dropWhile isWsChar).reverse.dropWhile isWsChar).reverse⟩

/-- JS `s.startsWith(pre)`. -/
def strStartsWith (s pre : String) : Bool := pre.data.isPrefixOf s.data

/-- Substring test on character lists: does `needle` occur contiguously
in the list? -/
def subList (needle : List Char) : List Char → Bool
  | [] => needle.isEmpty
  | c :: t => needle.isPrefixOf (c :: t) || subList needle t

/-- JS `s.includes(q)`. -/
def strIncludes (s q : String) : Bool := subList q.data s.data

/-- JS `String(value)` for the primitive node values the search code
stringifies.  Composite values are never stringified: every caller
first checks `type !== "object" && type !== "array"`. -/
def jsString : JsonValue → String
  | .str s => s
  | .num q => toString q
  | .boolean true => "true"
  | .boolean false => "false"
  | .null => "null"
  | .obj _ => ""
  | .arr _ => ""

/-- The matchType tag of a search result. -/
inductive MatchType where
  | key
  | value
  | jsonpath
  deriving DecidableEq

/-- SearchResult from `src/types/json.ts`. -/
structure SearchResult where
  path : List String
  key : Option String
  value : JsonValue
  type : JsonNodeType
  matchType : MatchType
  jsonPath : Option String := none
  pathExpression : Option String := none

/-- The `if (currentNode.key && currentNode.key.toLowerCase()
.includes(normalizedQuery))` block shared verbatim by searchInJson,
searchInJsonAsync, handleRegularSearch and handleRegularSearchStream;
`q` is the already-normalized query.  JS truthiness: an empty-string
key never key-matches. -/
def nodeKeyMatch (q : String) (n : JsonNode) : List SearchResult :=
  match n.key with
  | some k =>
      if k ≠ "" ∧ strIncludes (toLowerStr k) q then
        [{ path := n.path, key := n.key, value := n.value, type := n.type,
           matchType := .key }]
      else []
  | none => []

/-- The `if (currentNode.type !== "object" && currentNode.type !==
"array") { ... String(currentNode.value).toLowerCase().includes(...)`
block shared by the same four functions. -/
def nodeValueMatch (q : String) (n : JsonNode) : List SearchResult :=
  if (n.type ≠ .object ∧ n.type ≠ .array) ∧
      strIncludes (toLowerStr (jsString n.value)) q then
    [{ path := n.path, key := n.key, value := n.value, type := n.type,
       matchType := .value }]
  else []

/-- What one visit of a node contributes: key match then value match. -/
def nodeMatches (q : String) (n : JsonNode) : List SearchResult :=
  nodeKeyMatch q n ++ nodeValueMatch q n

mutual

/-- The depth-first `traverse` of searchInJson: emit the node's
matches, then recurse into its children in order. -/
def searchTraverse (q : String) : JsonNode → List SearchResult
  | .mk k v t p d e i (some cs) =>
      nodeMatches q (.mk k v t p d e i (some cs)) ++ searchTraverseList q cs
  | .mk k v t p d e i none =>
      nodeMatches q (.mk k v t p d e i none)
termination_by structural n => n

def searchTraverseList (q : String) : List JsonNode → List SearchResult
  | [] => []
  | c :: rest => searchTraverse q c ++ searchTraverseList q rest
termination_by structural l => l

end

/-- searchInJson from `src/lib/json-utils.ts`: DFS over the tree with
`normalizedQuery = query.toLowerCase()`; no deduplication, no result
cap. -/
def searchInJson (n : JsonNode) (query : String) : List SearchResult :=
  searchTraverse (toLowerStr query) n

/-- The children list a traversal enqueues (`currentNode.children`,
absent meaning none). -/
def childrenList (n : JsonNode) : List JsonNode := (n.children).getD []

mutual

/-- Size measure for termination of queue-based traversals. -/
def nodeSize : JsonNode → Nat
  | .mk _ _ _ _ _ _ _ (some cs) => 1 + nodesSize cs
  | .mk _ _ _ _ _ _ _ none => 1

def nodesSize : List JsonNode → Nat
  | [] => 0
  | n :: rest => nodeSize n + nodesSize rest

end

theorem nodesSize_append (l1 l2 : List JsonNode) :
    nodesSize (l1 ++ l2) = nodesSize l1 + nodesSize l2 := by
  induction l1 with
  | nil => simp [nodesSize]
  | cons n rest ih => simp [nodesSize, ih]; ring

theorem nodesSize_childrenList_lt (n : JsonNode) :
    nodesSize (childrenList n) < nodeSize n := by
  cases n with
  | mk k v t p d e i c =>
      cases c with
      | none => simp [childrenList, JsonNode.children, nodeSize, nodesSize]
      | some cs => simp [childrenList, JsonNode.children, nodeSize]

theorem nodeSize_pos (n : JsonNode) : 1 ≤ nodeSize n := by
  cases n with
  | mk k v t p d e i c =>
      cases c with
      | none => simp [nodeSize]
      | some cs => simp [nodeSize]

theorem queue_step_lt (n : JsonNode) (rest : List JsonNode) :
    nodesSize (rest ++ childrenList n) < nodesSize (n :: rest) := by
  rw [nodesSize_append]
  have h := nodesSize_childrenList_lt n
  simp only [nodesSize]
  omega

theorem queue_skip_lt (n : JsonNode) (rest : List JsonNode) :
    nodesSize rest < nodesSize (n :: rest) := by
  have h := nodeSize_pos n
  simp only [nodesSize]
  omega

/-- Reference breadth-first search: process the queue head, emit its
matches, enqueue its children at the back.  This is the common core of
searchInJsonAsync's text branch, handleRegularSearch and
handleRegularSearchStream, with cap, dedup and batching stripped. -/
def bfsSearch (q : String) : List JsonNode → List SearchResult
  | [] => []
  | n :: rest => nodeMatches q n ++ bfsSearch q (rest ++ childrenList n)
termination_by queue => nodesSize queue
decreasing_by
  apply queue_step_lt

/-- The `processChunk` loop of searchInJsonAsync's regular text branch
(`src/lib/json-utils.ts`): per node, the `results.length < maxResults`
for-loop guard, then the key block, the value block and the child
enqueue, unconditionally.  The 500-node chunking and progress posts are
omitted (see header): they never change which nodes are processed. -/
def asyncSearchLoop (q : String) (maxResults : Nat) :
    List JsonNode → List SearchResult → List SearchResult
  | [], results => results
  | n :: rest, results =>
      if results.length < maxResults then
        asyncSearchLoop q maxResults (rest ++ childrenList n)
          (results ++ nodeMatches q n)
      else results
termination_by queue _ => nodesSize queue
decreasing_by
  apply queue_step_lt

/-- The regular text branch of searchInJsonAsync: the query is trimmed
and lower-cased, the BFS starts at the root, default
`maxResults = 1000`. -/
def searchInJsonAsyncText (n : JsonNode) (query : String)
    (maxResults : Nat) : List SearchResult :=
  asyncSearchLoop (toLowerStr (jsTrim query)) maxResults [n] []

/-- searchInJsonAsync from `src/lib/json-utils.ts`.  The JSONPath
validator and evaluator live in the external jsonpath-plus library, so
their outcome is passed in: `isValidJP` is `isValidJSONPath(trimmed)`
and `jpResult` the outcome of `searchWithJSONPath`.  On evaluation
failure the catch block returns `[]` (its comment: "Fall back to empty
results if JSONPath fails"). -/
def searchInJsonAsync (n : JsonNode) (query : String) (maxResults : Nat)
    (isValidJP : Bool) (jpResult : Except String (List SearchResult)) :
    List SearchResult :=
  let trimmed := jsTrim query
  if strStartsWith trimmed "$" && isValidJP then
    match jpResult with
    | .ok rs => rs
    | .error _ => []
  else asyncSearchLoop (toLowerStr trimmed) maxResults [n] []

/-- The `processChunk` loop of handleRegularSearch
(`src/lib/json-worker.ts`): per node the for-loop guard
`results.length < maxResults`, the `processedPaths` skip (which also
skips enqueueing the node's children), the key block with its
`if (results.length >= maxResults) break`, the value block with the
same break, then the child enqueue.  Both breaks abandon the remaining
queue.  The 2000-node chunking, node counting and progress posts are
omitted (see header). -/
def regularSearchLoop (q : String) (maxResults : Nat) :
    List JsonNode → List String → List SearchResult → List SearchResult
  | [], _, results => results
  | n :: rest, visited, results =>
      if results.length < maxResults then
        let pathKey := String.intercalate "." n.path
        if visited.contains pathKey then
          regularSearchLoop q maxResults rest visited results
        else
          let r1 := results ++ nodeKeyMatch q n
          if maxResults ≤ r1.length then r1
          else
            let r2 := r1 ++ nodeValueMatch q n
            if maxResults ≤ r2.length then r2
            else
              regularSearchLoop q maxResults (rest ++ childrenList n)
                (pathKey :: visited) r2
      else results
termination_by queue _ _ => nodesSize queue
decreasing_by
  · apply queue_skip_lt
  · apply queue_step_lt

/-- handleRegularSearch from `src/lib/json-worker.ts`: empty trimmed
queries return no results before any traversal; otherwise the BFS loop
runs with `normalizedQuery = query.toLowerCase()` (not trimmed) and
`maxResults = 1000`.  Returns the payload of the terminal
`SEARCH_RESULTS` message. -/
def handleRegularSearch (n : JsonNode) (query : String) :
    List SearchResult :=
  if jsTrim query = "" then []
  else regularSearchLoop (toLowerStr query) 1000 [n] [] []

/-- A streamed message of SEARCH_STREAM: either one result
(`isComplete:false`) or the completion sentinel (`isComplete:true`). -/
inductive StreamMsg where
  | result (r : SearchResult)
  | complete

/-- Appending one found result to the batch, flushing the batch as
individual messages once it reaches `streamBatchSize` — the
`resultBatch.push(result); if (resultBatch.length >= streamBatchSize)
streamBatch()` step of handleRegularSearchStream. -/
def pushStreamResult (streamBatchSize : Nat) (r : SearchResult)
    (batch : List SearchResult) (msgs : List StreamMsg) :
    List SearchResult × List StreamMsg :=
  let b2 := batch ++ [r]
  if streamBatchSize ≤ b2.length then ([], msgs ++ b2.map StreamMsg.result)
  else (b2, msgs)

/-- One node's worth of stream pushes: the key match then the value
match, each through pushStreamResult. -/
def pushStreamAll (streamBatchSize : Nat) (rs : List SearchResult)
    (bm : List SearchResult × List StreamMsg) :
    List SearchResult × List StreamMsg :=
  rs.foldl (fun bm r => pushStreamResult streamBatchSize r bm.1 bm.2) bm

/-- The `processChunk` loop of handleRegularSearchStream
(`src/lib/json-worker.ts`): per node the for-loop guard
`foundResults < maxResults`, then the key block and the value block —
each pushing into the batch and flushing at `streamBatchSize = 5` —
then the child enqueue.  There is no visited-path set and no empty
query check.  On exit (queue empty or cap reached) the remaining batch
is flushed and the `isComplete:true` sentinel is sent.  The 100-node
chunking, node counting and progress posts are omitted (see header). -/
def streamLoop (q : String) (maxResults streamBatchSize : Nat) :
    List JsonNode → Nat → List SearchResult → List StreamMsg →
    List StreamMsg
  | [], _, batch, msgs => msgs ++ batch.map StreamMsg.result ++ [.complete]
  | n :: rest, found, batch, msgs =>
      if found < maxResults then
        let pushed := pushStreamAll streamBatchSize (nodeMatches q n)
          (batch, msgs)
        streamLoop q maxResults streamBatchSize (rest ++ childrenList n)
          (found + (nodeMatches q n).length) pushed.1 pushed.2
      else msgs ++ batch.map StreamMsg.result ++ [.complete]
termination_by queue _ _ _ => nodesSize queue
decreasing_by
  apply queue_step_lt

/-- handleRegularSearchStream from `src/lib/json-worker.ts`: the
streamed messages of a regular text SEARCH_STREAM, in post order. -/
def handleRegularSearchStream (n : JsonNode) (query : String) :
    List StreamMsg :=
  streamLoop (toLowerStr query) 1000 5 [n] 0 [] []

/-- The results carried by a stream message list. -/
def streamResults (msgs : List StreamMsg) : List SearchResult :=
  msgs.filterMap (fun m =>
    match m with
    | .result r => some r
    | .complete => none)

/-- How many `isComplete:true` sentinels a stream message list holds. -/
def completeCount (msgs : List StreamMsg) : Nat :=
  msgs.countP (fun m =>
    match m with
    | .complete => true
    | .result _ => false)

mutual

/-- All nodes of a subtree in preorder (the node set every traversal
of the source visits). -/
def allNodes : JsonNode → List JsonNode
  | .mk k v t p d e i (some cs) =>
      .mk k v t p d e i (some cs) :: allNodesList cs
  | .mk k v t p d e i none => [.mk k v t p d e i none]

def allNodesList : List JsonNode → List JsonNode
  | [] => []
  | c :: rest => allNodes c ++ allNodesList rest

end

/-- handleSearch from `src/lib/json-worker.ts`, at the level of the
results carried by its terminal `SEARCH_RESULTS` message.  The
JSONPath validator and evaluator are the external jsonpath-plus
library, so their outcome is passed in: `isValidJP` is
`isValidJSONPath(query)` and `jpResult` the outcome of
`searchWithJSONPath`.  The catch block falls back to
`handleRegularSearch(node, query, messageId)`. -/
def handleSearch (n : JsonNode) (query : String) (isValidJP : Bool)
    (jpResult : Except String (List SearchResult)) : List SearchResult :=
  if isValidJP then
    match jpResult with
    | .ok rs => rs
    | .error _ => handleRegularSearch n query
  else handleRegularSearch n query

/-- The worker responses relevant to the search handlers:
`SEARCH_RESULTS`, `SEARCH_RESULT_STREAM`, `PARSE_JSON_ERROR` and the
generic `ERROR` reply of the dispatcher (`PROGRESS` omitted, see
header). -/
inductive WorkerResponseMsg where
  | searchResults (results : List SearchResult)
  | searchResultStream (result : Option SearchResult) (isComplete : Bool)
  | parseJsonError (error : String)
  | errorResponse (error : String)

/-- Whether a response surfaces an error. -/
def isErrorResponse : WorkerResponseMsg → Bool
  | .parseJsonError _ => true
  | .errorResponse _ => true
  | _ => false

def streamMsgToResponse : StreamMsg → WorkerResponseMsg
  | .result r => .searchResultStream (some r) false
  | .complete => .searchResultStream none true

/-- handleSearch as the list of (non-progress) messages it posts. -/
def handleSearchMsgs (n : JsonNode) (query : String) (isValidJP : Bool)
    (jpResult : Except String (List SearchResult)) :
    List WorkerResponseMsg :=
  [.searchResults (handleSearch n query isValidJP jpResult)]

/-- The `results.forEach((result, index) => ...)` loop of
handleSearchStream's JSONPath branch: each result is streamed,
`isComplete` set on the last one. -/
def streamEachJsonPath : List SearchResult → List WorkerResponseMsg
  | [] => []
  | [r] => [.searchResultStream (some r) true]
  | r :: rest => .searchResultStream (some r) false :: streamEachJsonPath rest

/-- handleSearchStream from `src/lib/json-worker.ts` as the list of
(non-progress) messages it posts: the JSONPath branch streams the
evaluated results (a bare sentinel when there are none) and falls back
to handleRegularSearchStream on evaluation failure; other queries go
to handleRegularSearchStream directly. -/
def handleSearchStreamMsgs (n : JsonNode) (query : String)
    (isValidJP : Bool) (jpResult : Except String (List SearchResult)) :
    List WorkerResponseMsg :=
  if isValidJP then
    match jpResult with
    | .ok rs =>
        if rs.isEmpty then [.searchResultStream none true]
        else streamEachJsonPath rs
    | .error _ => (handleRegularSearchStream n query).map streamMsgToResponse
  else (handleRegularSearchStream n query).map streamMsgToResponse

/-- handleSearchRawJson from `src/lib/json-worker.ts`.  `parsed` is the
outcome of `parseJsonSafely(jsonString)` (`JSON.parse` is a platform
builtin; `none` models a malformed string): on failure the handler
posts `SEARCH_RESULTS` with an empty list and stops; on success it
builds the tree and delegates to handleSearch. -/
def handleSearchRawJson (parsed : Option JsonValue) (query : String)
    (isValidJP : Bool) (jpResult : Except String (List SearchResult)) :
    List WorkerResponseMsg :=
  match parsed with
  | none => [.searchResults []]
  | some data =>
      handleSearchMsgs (createJsonNode data none [] 0 none) query
        isValidJP jpResult

/-- handleSearchRawJsonStream from `src/lib/json-worker.ts`: on parse
failure a single `SEARCH_RESULT_STREAM {isComplete:true}` with no
result; on success it builds the tree and delegates to
handleSearchStream. -/
def handleSearchRawJsonStream (parsed : Option JsonValue) (query : String)
    (isValidJP : Bool) (jpResult : Except String (List SearchResult)) :
    List WorkerResponseMsg :=
  match parsed with
  | none => [.searchResultStream none true]
  | some data =>
      handleSearchStreamMsgs (createJsonNode data none [] 0 none) query
        isValidJP jpResult

mutual

/-- deepCopyJsonNode from the tree-transform module: copies every
field and recurses into children.  The `parent` rewiring is dropped
with the `parent` field (see header). -/
def deepCopyJsonNode : JsonNode → JsonNode
  | .mk k v t p d e i (some cs) =>
      .mk k v t p d e i (some (deepCopyJsonNodeList cs))
  | .mk k v t p d e i none => .mk k v t p d e i none

def deepCopyJsonNodeList : List JsonNode → List JsonNode
  | [] => []
  | c :: rest => deepCopyJsonNode c :: deepCopyJsonNodeList rest

end

mutual

/-- The `findAndToggle` closure of toggleNodeAtPath: a node whose
recomputed path equals the target is returned with `isExpanded`
flipped and its subtree untouched; otherwise the children are mapped
(each child's path extends the current one by its key, empty and
absent keys extending by nothing, exactly like createJsonNode). -/
def findAndToggle (target : List String) : JsonNode → List String → JsonNode
  | .mk k v t p d e i (some cs), cur =>
      if cur = target then .mk k v t p d (!e) i (some cs)
      else .mk k v t p d e i (some (findAndToggleList target cs cur))
  | .mk k v t p d e i none, cur =>
      if cur = target then .mk k v t p d (!e) i none
      else .mk k v t p d e i none

def findAndToggleList (target : List String) :
    List JsonNode → List String → List JsonNode
  | [], _ => []
  | c :: rest, cur =>
      findAndToggle target c (childNodePath c.key cur)
        :: findAndToggleList target rest cur

end

/-- toggleNodeAtPath from the tree-transform module: deep-copy, then
find-and-toggle starting from the empty current path. -/
def toggleNodeAtPath (n : JsonNode) (targetPath : List String) : JsonNode :=
  findAndToggle targetPath (deepCopyJsonNode n) []

mutual

/-- Specification transform for the toggle claim: flip `isExpanded` at
exactly the nodes whose recomputed path is the target, recursing
through the whole tree and touching nothing else. -/
def flipAt (target : List String) : JsonNode → List String → JsonNode
  | .mk k v t p d e i (some cs), cur =>
      .mk k v t p d (if cur = target then !e else e) i
        (some (flipAtList target cs cur))
  | .mk k v t p d e i none, cur =>
      .mk k v t p d (if cur = target then !e else e) i none

def flipAtList (target : List String) :
    List JsonNode → List String → List JsonNode
  | [], _ => []
  | c :: rest, cur =>
      flipAt target c (childNodePath c.key cur) :: flipAtList target rest cur

end

mutual

/-- How many nodes of a subtree have the given recomputed path. -/
def countPath (target : List String) : JsonNode → List String → Nat
  | .mk _ _ _ _ _ _ _ (some cs), cur =>
      (if cur = target then 1 else 0) + countPathList target cs cur
  | .mk _ _ _ _ _ _ _ none, cur => if cur = target then 1 else 0

def countPathList (target : List String) :
    List JsonNode → List String → Nat
  | [], _ => 0
  | c :: rest, cur =>
      countPath target c (childNodePath c.key cur)
        + countPathList target rest cur

end

/-- An entry of the LRU cache: the cached value and its timestamp. -/
structure LRUEntry (α : Type) where
  value : α
  timestamp : Int

/-- JS `Map.get`: the entry stored under `k`. -/
def mapFind {α : Type} : List (String × LRUEntry α) → String →
    Option (LRUEntry α)
  | [], _ => none
  | (k0, e) :: rest, k => if k0 = k then some e else mapFind rest k

/-- JS `Map.delete`: removes the entry stored under `k`, keeping
insertion order. -/
def mapDelete {α : Type} : List (String × LRUEntry α) → String →
    List (String × LRUEntry α)
  | [], _ => []
  | (k0, e) :: rest, k => if k0 = k then rest else (k0, e) :: mapDelete rest k

/-- JS `Map.set`: an existing key is updated in place (its position is
kept), a new key is appended at the back. -/
def mapSet {α : Type} : List (String × LRUEntry α) → String → LRUEntry α →
    List (String × LRUEntry α)
  | [], k, e => [(k, e)]
  | (k0, e0) :: rest, k, e =>
      if k0 = k then (k0, e) :: rest else (k0, e0) :: mapSet rest k e

/-- LRUCache.get from the worker-manager module: a missing key returns
null; an entry older than `maxAge` is deleted and null returned; a
live entry is deleted and re-inserted at the back with a refreshed
timestamp, and its value returned.  `now` is `Date.now()`. -/
def LRUget {α : Type} (maxAge : Int) (now : Int)
    (cache : List (String × LRUEntry α)) (k : String) :
    Option α × List (String × LRUEntry α) :=
  match mapFind cache k with
  | none => (none, cache)
  | some item =>
      if maxAge < now - item.timestamp then (none, mapDelete cache k)
      else
        (some item.value,
          mapSet (mapDelete cache k) k ⟨item.value, now⟩)

/-- LRUCache.set from the worker-manager module: at capacity the first
key of the map is evicted — unless `keys().next().value` is falsy,
which an empty-string first key is — then the entry is stored with the
current timestamp. -/
def LRUset {α : Type} (maxSize : Nat) (now : Int)
    (cache : List (String × LRUEntry α)) (k : String) (v : α) :
    List (String × LRUEntry α) :=
  let cache2 :=
    if maxSize ≤ cache.length then
      match cache.head? with
      | some (k0, _) => if k0 ≠ "" then mapDelete cache k0 else cache
      | none => cache
    else cache
  mapSet cache2 k ⟨v, now⟩

/-- The payload sizes the admission estimate reads: the worker request
kinds of the WorkerMessage union, with the `jsonString` lengths the
estimate depends on. -/
inductive WorkerRequest where
  | parseJson (len : Nat)
  | parseJsonMetadata (len : Nat)
  | search
  | searchStream
  | searchRawJson (len : Nat)
  | searchRawJsonStream (len : Nat)
  | calculateStats
  | lazyLoadChildren

/-- estimateOperationMemory from JsonWorkerManager: 1 KB base, plus
2× the string length for PARSE_JSON, 50 KB for SEARCH, 0.5× the string
length for SEARCH_RAW_JSON; every other request type gets only the
base. -/
def estimateOperationMemory : WorkerRequest → Rat
  | .parseJson len => 1024 + len * 2
  | .search => 1024 + 50 * 1024
  | .searchRawJson len => 1024 + len * (1 / 2)
  | _ => 1024

/-- The manager state the admission check reads and the accepted
path updates: `operationMetadata.size` and `currentMemoryUsage`. -/
structure ManagerState where
  activeOperations : Nat
  currentMemoryUsage : Rat

/-- MAX_CONCURRENT_OPERATIONS from JsonWorkerManager. -/
def MAX_CONCURRENT_OPERATIONS : Nat := 3

/-- MAX_MEMORY_USAGE from JsonWorkerManager: 100 MB. -/
def MAX_MEMORY_USAGE : Rat := 100 * 1024 * 1024

/-- canAcceptNewOperation from JsonWorkerManager: false when the
concurrent-operation limit is reached or when the tracked usage plus
the estimate would exceed the memory limit. -/
def canAcceptNewOperation (st : ManagerState) (estimatedMemory : Rat) :
    Bool :=
  if MAX_CONCURRENT_OPERATIONS ≤ st.activeOperations then false
  else if MAX_MEMORY_USAGE < st.currentMemoryUsage + estimatedMemory then
    false
  else true

/-- The admission step of `postMessage`: estimate, check, and either
reject (state untouched — the rejection happens before any map or
counter is updated) or record the operation. -/
def admitOperation (st : ManagerState) (msg : WorkerRequest) :
    Bool × ManagerState :=
  let est := estimateOperationMemory msg
  if canAcceptNewOperation st est then
    (true, ⟨st.activeOperations + 1, st.currentMemoryUsage + est⟩)
  else (false, st)

mutual

/-- The tree-shape invariant of the spec, as a checker: every node has
`depth = path.length` and children present exactly for objects and
arrays, and every child extends its parent's path by its own
(present, nonempty) key with depth one deeper. -/
def shapeOK : JsonNode → Bool
  | .mk _ _ t path depth _ _ (some cs) =>
      (depth == path.length) && (t == .object || t == .array) &&
        shapeChildren path depth cs
  | .mk _ _ t path depth _ _ none =>
      (depth == path.length) && !(t == .object || t == .array)

def shapeChildren (ppath : List String) (pdepth : Nat) :
    List JsonNode → Bool
  | [] => true
  | .mk (some k) v t p d e i cc :: rest =>
      (p == ppath ++ [k]) && (d == pdepth + 1) &&
        shapeOK (.mk (some k) v t p d e i cc) &&
        shapeChildren ppath pdepth rest
  | .mk none _ _ _ _ _ _ _ :: _ => false

end

/-- Cache state after set("a")@0, set("b")@1, set("a")@2, set("c")@3
with maxSize 3: the third set updates "a" in place, so "a" stays in
the front slot although "b" is now the least recently used key. -/
def lruCacheBefore : List (String × LRUEntry Nat) :=
  LRUset 3 3 (LRUset 3 2 (LRUset 3 1 (LRUset 3 0 [] "a" 1) "b" 2) "a" 3) "c" 4

/-- The same cache after one more set on the full cache. -/
def lruCacheAfter : List (String × LRUEntry Nat) :=
  LRUset 3 4 lruCacheBefore "d" 5

/-- Concrete tree for the toggle witness. -/
def toggleDemoTree : JsonNode :=
  createJsonNode (.obj [("a", .arr [.boolean true])]) none [] 0 none

/-- The tree of `{"": true}`: its child keeps the root's empty path. -/
def emptyKeyTree : JsonNode :=
  createJsonNode (.obj [("", .boolean true)]) none [] 0 none

/-- An array of 1001 matching strings: searchInJson returns 1001
results on it. -/
def wideTree : JsonNode :=
  createJsonNode (.arr (List.replicate 1001 (.str "a"))) none [] 0 none

/-- The tree of `{"$a": true}`, whose key contains the JSONPath-like
query string itself. -/
def dollarTree : JsonNode :=
  createJsonNode (.obj [("$a", .boolean true)]) none [] 0 none

/-- A one-string tree for the streaming counterexample. -/
def tinyStrTree : JsonNode := createJsonNode (.str "x") none [] 0 none

/-- C7: admission rejects exactly at 3 in-flight operations or when
the tracked memory plus the estimate (1 KB base, plus 2× string length
for parse, 0.5× string length for raw-json search, 50 KB for tree
search) would exceed 100 MB, leaving the manager state unchanged;
otherwise the operation is recorded. -/
theorem admission_overload_iff (st : ManagerState) (msg : WorkerRequest) :
    ((admitOperation st msg).1 = false ↔
      3 ≤ st.activeOperations ∨
        (100 : Rat) * 1024 * 1024 <
          st.currentMemoryUsage + estimateOperationMemory msg) ∧
    (admitOperation st msg).2 =
      (if (admitOperation st msg).1 = true then
        ManagerState.mk (st.activeOperations + 1)
          (st.currentMemoryUsage + estimateOperationMemory msg)
      else st) ∧
    (∀ len : Nat, estimateOperationMemory (.parseJson len) = 1024 + 2 * len) ∧
    (∀ len : Nat, estimateOperationMemory (.searchRawJson len) = 1024 + len / 2) ∧
    estimateOperationMemory .search = 1024 + 50 * 1024 := by
  refine ⟨?_, ?_, ?_, ?_, rfl⟩
  · simp only [admitOperation, canAcceptNewOperation,
      MAX_CONCURRENT_OPERATIONS, MAX_MEMORY_USAGE]
    split_ifs with h1 h2 <;> simp_all
  · simp only [admitOperation, canAcceptNewOperation,
      MAX_CONCURRENT_OPERATIONS, MAX_MEMORY_USAGE]
    split_ifs with h1 h2 <;> simp_all
  · intro len
    simp only [estimateOperationMemory]
    ring
  · intro len
    simp only [estimateOperationMemory]
    ring

/-- C10: a raw-JSON search on a string that fails to parse replies
with an empty SEARCH_RESULTS (plain variant) or a bare
isComplete:true SEARCH_RESULT_STREAM (streaming variant), never with
an error response, for every query and every JSONPath outcome. -/
theorem rawJsonSearch_parse_failure (query : String) (isValidJP : Bool)
    (jpResult : Except String (List SearchResult)) :
    handleSearchRawJson none query isValidJP jpResult =
      [.searchResults []] ∧
    handleSearchRawJsonStream none query isValidJP jpResult =
      [.searchResultStream none true] ∧
    (handleSearchRawJson none query isValidJP jpResult).all
      (fun m => !isErrorResponse m) = true ∧
    (handleSearchRawJsonStream none query isValidJP jpResult).all
      (fun m => !isErrorResponse m) = true :=
  ⟨rfl, rfl, rfl, rfl⟩

theorem mapFind_mapSet_self {α : Type} (m : List (String × LRUEntry α))
    (k : String) (e : LRUEntry α) : mapFind (mapSet m k e) k = some e := by
  induction m with
  | nil => simp [mapSet, mapFind]
  | cons he rest ih =>
      obtain ⟨k0, e0⟩ := he
      by_cases h : k0 = k
      · simp [mapSet, mapFind, h]
      · simp [mapSet, mapFind, h, ih]

theorem mapFind_mapSet_ne {α : Type} (m : List (String × LRUEntry α))
    (k k2 : String) (e : LRUEntry α) (h : k ≠ k2) :
    mapFind (mapSet m k e) k2 = mapFind m k2 := by
  induction m with
  | nil => simp [mapSet, mapFind, h]
  | cons he rest ih =>
      obtain ⟨k0, e0⟩ := he
      by_cases h0 : k0 = k
      · subst h0
        simp [mapSet, mapFind, h]
      · simp [mapSet, mapFind, h0, ih]

theorem mapFind_not_contains {α : Type} (m : List (String × LRUEntry α))
    (k : String) (h : (m.map Prod.fst).contains k = false) :
    mapFind m k = none := by
  induction m with
  | nil => simp [mapFind]
  | cons he rest ih =>
      obtain ⟨k0, e0⟩ := he
      simp only [List.map_cons, List.contains_cons, Bool.or_eq_false_iff] at h
      simp only [mapFind]
      rw [if_neg, ih h.2]
      intro hk
      subst hk
      simp at h

theorem mapFind_mapDelete_self {α : Type} (m : List (String × LRUEntry α))
    (k : String) (h : keysNodupB (m.map Prod.fst) = true) :
    mapFind (mapDelete m k) k = none := by
  induction m with
  | nil => simp [mapDelete, mapFind]
  | cons he rest ih =>
      obtain ⟨k0, e0⟩ := he
      simp only [List.map_cons, keysNodupB, Bool.and_eq_true,
        Bool.not_eq_true'] at h
      by_cases h0 : k0 = k
      · subst h0
        simp only [mapDelete, if_pos rfl]
        exact mapFind_not_contains rest k0 h.1
      · simp only [mapDelete, if_neg h0, mapFind, if_neg h0]
        exact ih h.2

theorem contains_mapDelete_false {α : Type} (m : List (String × LRUEntry α))
    (k x : String) (h : ((m.map Prod.fst).contains x) = false) :
    (((mapDelete m k).map Prod.fst).contains x) = false := by
  induction m with
  | nil => simp [mapDelete]
  | cons he rest ih =>
      obtain ⟨k0, e0⟩ := he
      simp only [List.map_cons, List.contains_cons, Bool.or_eq_false_iff] at h
      by_cases h0 : k0 = k
      · subst h0
        simp only [mapDelete, if_pos rfl]
        exact h.2
      · simp only [mapDelete, if_neg h0, List.map_cons, List.contains_cons,
          Bool.or_eq_false_iff]
        exact ⟨h.1, ih h.2⟩

theorem keysNodupB_mapDelete {α : Type} (m : List (String × LRUEntry α))
    (k : String) (h : keysNodupB (m.map Prod.fst) = true) :
    keysNodupB ((mapDelete m k).map Prod.fst) = true := by
  induction m with
  | nil => simpa [mapDelete] using h
  | cons he rest ih =>
      obtain ⟨k0, e0⟩ := he
      simp only [List.map_cons, keysNodupB, Bool.and_eq_true,
        Bool.not_eq_true'] at h
      by_cases h0 : k0 = k
      · simpa [mapDelete, h0] using h.2
      · simp only [mapDelete, if_neg h0, List.map_cons, keysNodupB,
          Bool.and_eq_true, Bool.not_eq_true']
        exact ⟨contains_mapDelete_false rest k k0 h.1, ih h.2⟩

theorem mapDelete_contains_self_false {α : Type}
    (m : List (String × LRUEntry α)) (k : String)
    (h : keysNodupB (m.map Prod.fst) = true) :
    (((mapDelete m k).map Prod.fst).contains k) = false := by
  induction m with
  | nil => simp [mapDelete]
  | cons he rest ih =>
      obtain ⟨k0, e0⟩ := he
      simp only [List.map_cons, keysNodupB, Bool.and_eq_true,
        Bool.not_eq_true'] at h
      by_cases h0 : k0 = k
      · subst h0
        simpa [mapDelete] using h.1
      · simp only [mapDelete, if_neg h0, List.map_cons, List.contains_cons,
          Bool.or_eq_false_iff]
        refine ⟨?_, ih h.2⟩
        simp only [beq_eq_false_iff_ne]
        exact fun hk => h0 hk.symm

theorem mapSet_keys_of_contains {α : Type} (m : List (String × LRUEntry α))
    (k : String) (e : LRUEntry α) (h : ((m.map Prod.fst).contains k) = true) :
    (mapSet m k e).map Prod.fst = m.map Prod.fst := by
  induction m with
  | nil => simp at h
  | cons he rest ih =>
      obtain ⟨k0, e0⟩ := he
      by_cases h0 : k0 = k
      · simp [mapSet, h0]
      · simp only [List.map_cons, List.contains_cons, Bool.or_eq_true] at h
        rcases h with h | h
        · exact absurd (beq_iff_eq.mp h).symm h0
        · simp [mapSet, h0, ih h]

theorem mapSet_append_of_not_contains {α : Type}
    (m : List (String × LRUEntry α)) (k : String) (e : LRUEntry α)
    (h : ((m.map Prod.fst).contains k) = false) :
    mapSet m k e = m ++ [(k, e)] := by
  induction m with
  | nil => simp [mapSet]
  | cons he rest ih =>
      obtain ⟨k0, e0⟩ := he
      simp only [List.map_cons, List.contains_cons, Bool.or_eq_false_iff] at h
      have h0 : k0 ≠ k := by
        intro hk
        subst hk
        simp at h
      simp [mapSet, h0, ih h.2]

theorem contains_append_false (l1 l2 : List String) (x : String)
    (h1 : l1.contains x = false) (h2 : l2.contains x = false) :
    (l1 ++ l2).contains x = false := by
  induction l1 with
  | nil => simpa using h2
  | cons a rest ih =>
      simp only [List.contains_cons, Bool.or_eq_false_iff] at h1
      simp only [List.cons_append, List.contains_cons, Bool.or_eq_false_iff]
      exact ⟨h1.1, ih h1.2⟩

theorem keysNodupB_append_singleton (l : List String) (k : String)
    (h1 : keysNodupB l = true) (h2 : l.contains k = false) :
    keysNodupB (l ++ [k]) = true := by
  induction l with
  | nil => simp [keysNodupB]
  | cons a rest ih =>
      simp only [keysNodupB, Bool.and_eq_true, Bool.not_eq_true'] at h1
      simp only [List.contains_cons, Bool.or_eq_false_iff] at h2
      simp only [List.cons_append, keysNodupB, Bool.and_eq_true,
        Bool.not_eq_true']
      refine ⟨?_, ih h1.2 h2.2⟩
      refine contains_append_false _ _ _ h1.1 ?_
      simp only [List.contains_cons, List.contains_nil, Bool.or_false,
        beq_eq_false_iff_ne]
      intro hk
      subst hk
      simp at h2

theorem keysNodupB_mapSet {α : Type} (m : List (String × LRUEntry α))
    (k : String) (e : LRUEntry α) (h : keysNodupB (m.map Prod.fst) = true) :
    keysNodupB ((mapSet m k e).map Prod.fst) = true := by
  by_cases hc : ((m.map Prod.fst).contains k) = true
  · rw [mapSet_keys_of_contains m k e hc]
    exact h
  · rw [mapSet_append_of_not_contains m k e (by simpa using hc)]
    rw [List.map_append]
    exact keysNodupB_append_singleton _ _ h (by simpa using hc)

theorem keysNodupB_LRUset {α : Type} (maxSize : Nat) (t : Int)
    (cache : List (String × LRUEntry α)) (k : String) (v : α)
    (h : keysNodupB (cache.map Prod.fst) = true) :
    keysNodupB ((LRUset maxSize t cache k v).map Prod.fst) = true := by
  simp only [LRUset]
  apply keysNodupB_mapSet
  split
  · split
    · split
      · exact keysNodupB_mapDelete _ _ h
      · exact h
    · exact h
  · exact h

/-- C8 (amended): a `get` within `maxAge` of a `set` returns the value
and moves the key to the most-recent slot; an expired `get` returns
null and deletes the entry; and a `set` on a full cache evicts the key
at the FRONT of the insertion-ordered map (which `get` reorders but
`set` of an existing key does not, so the front key need not be the
least recently used), provided that front key is nonempty. -/
theorem lru_cache_spec :
    (∀ (α : Type) (maxSize : Nat) (maxAge t t2 : Int)
        (cache : List (String × LRUEntry α)) (k : String) (v : α),
      keysNodupB (cache.map Prod.fst) = true →
      t2 - t ≤ maxAge →
      LRUget maxAge t2 (LRUset maxSize t cache k v) k =
        (some v, mapDelete (LRUset maxSize t cache k v) k ++ [(k, ⟨v, t2⟩)])) ∧
    (∀ (α : Type) (maxAge t2 : Int) (cache : List (String × LRUEntry α))
        (k : String) (item : LRUEntry α),
      mapFind cache k = some item →
      maxAge < t2 - item.timestamp →
      LRUget maxAge t2 cache k = (none, mapDelete cache k)) ∧
    (∀ (α : Type) (maxSize : Nat) (t : Int)
        (cache : List (String × LRUEntry α)) (k0 : String) (e0 : LRUEntry α)
        (k : String) (v : α),
      keysNodupB (cache.map Prod.fst) = true →
      maxSize ≤ cache.length →
      cache.head? = some (k0, e0) →
      k0 ≠ "" →
      k ≠ k0 →
      mapFind (LRUset maxSize t cache k v) k0 = none) := by
  refine ⟨?_, ?_, ?_⟩
  · intro α maxSize maxAge t t2 cache k v hn hage
    have hfind : mapFind (LRUset maxSize t cache k v) k = some ⟨v, t⟩ := by
      simp only [LRUset]
      exact mapFind_mapSet_self _ _ _
    have hn2 := keysNodupB_LRUset maxSize t cache k v hn
    simp only [LRUget, hfind]
    rw [if_neg (by simpa using not_lt.mpr hage)]
    rw [mapSet_append_of_not_contains _ _ _
      (mapDelete_contains_self_false _ _ hn2)]
  · intro α maxAge t2 cache k item hfind hexp
    simp only [LRUget, hfind]
    rw [if_pos hexp]
  · intro α maxSize t cache k0 e0 k v hn hlen hhead hk0 hkk
    cases cache with
    | nil => simp at hhead
    | cons he rest =>
        simp only [List.head?, Option.some.injEq] at hhead
        subst hhead
        have hstep : LRUset maxSize t ((k0, e0) :: rest) k v
            = mapSet (mapDelete ((k0, e0) :: rest) k0) k ⟨v, t⟩ := by
          simp only [LRUset]
          rw [if_pos hlen]
          exact congrArg (fun m => mapSet m k ⟨v, t⟩) (if_pos hk0)
        rw [hstep, mapFind_mapSet_ne _ _ _ _ hkk]
        exact mapFind_mapDelete_self _ _ hn

/-- C8 counterexample: with the cache full, `set` evicts "a" — the
front key — although "a" (last used at time 2) is more recently used
than "b" (last used at time 1), so the least recently used key
survives and the claim fails. -/
theorem lru_claim_counterexample :
    mapFind lruCacheBefore "a" = some ⟨3, 2⟩ ∧
    mapFind lruCacheBefore "b" = some ⟨2, 1⟩ ∧
    lruCacheBefore.length = 3 ∧
    mapFind lruCacheAfter "a" = none ∧
    mapFind lruCacheAfter "b" = some ⟨2, 1⟩ :=
  ⟨rfl, rfl, rfl, rfl, rfl⟩

/-- Witness for lru_cache_spec: each conjunct applied at concrete
inputs with the hypotheses discharged by computation. -/
theorem lru_cache_spec_witness :
    ((1 : Int) - 0 ≤ 300000 ∧
      LRUget 300000 1 (LRUset 10 0 ([] : List (String × LRUEntry Nat)) "k" 7)
          "k" =
        (some 7, mapDelete (LRUset 10 0 [] "k" 7) "k" ++ [("k", ⟨7, 1⟩)])) ∧
    (mapFind [("k", (⟨7, 0⟩ : LRUEntry Nat))] "k" = some ⟨7, 0⟩ ∧
      (300000 : Int) < 300001 - 0 ∧
      LRUget 300000 300001 [("k", (⟨7, 0⟩ : LRUEntry Nat))] "k" =
        (none, mapDelete [("k", ⟨7, 0⟩)] "k")) ∧
    (mapFind
        (LRUset 2 5 [("a", (⟨1, 0⟩ : LRUEntry Nat)), ("b", ⟨2, 1⟩)] "c" 9)
        "a" = none) :=
  ⟨⟨by decide,
      lru_cache_spec.1 Nat 10 300000 0 1 [] "k" 7 (by decide) (by decide)⟩,
    ⟨rfl, by decide,
      lru_cache_spec.2.1 Nat 300000 300001 [("k", ⟨7, 0⟩)] "k" ⟨7, 0⟩ rfl
        (by decide)⟩,
    lru_cache_spec.2.2 Nat 2 5 [("a", ⟨1, 0⟩), ("b", ⟨2, 1⟩)] "a" ⟨1, 0⟩
      "c" 9 (by decide) (by decide) rfl (by decide) (by decide)⟩

theorem findAndToggle_key (target : List String) (n : JsonNode)
    (cur : List String) : (findAndToggle target n cur).key = n.key := by
  cases n with
  | mk k v t p d e i c =>
      cases c with
      | some cs =>
          simp only [findAndToggle]
          split_ifs <;> rfl
      | none =>
          simp only [findAndToggle]
          split_ifs <;> rfl

mutual

theorem deepCopy_id : ∀ (n : JsonNode), deepCopyJsonNode n = n
  | .mk k v t p d e i (some cs) => by
      rw [deepCopyJsonNode, deepCopyList_id cs]
  | .mk k v t p d e i none => by rw [deepCopyJsonNode]

theorem deepCopyList_id : ∀ (l : List JsonNode), deepCopyJsonNodeList l = l
  | [] => by rw [deepCopyJsonNodeList]
  | c :: rest => by
      rw [deepCopyJsonNodeList, deepCopy_id c, deepCopyList_id rest]

end

mutual

theorem findAndToggle_invol (target : List String) :
    ∀ (n : JsonNode) (cur : List String),
      findAndToggle target (findAndToggle target n cur) cur = n
  | .mk k v t p d e i (some cs), cur => by
      by_cases h : cur = target
      · simp [findAndToggle, h]
      · simp only [findAndToggle, if_neg h]
        rw [findAndToggleList_invol target cs cur]
  | .mk k v t p d e i none, cur => by
      by_cases h : cur = target
      · simp [findAndToggle, h]
      · simp only [findAndToggle, if_neg h]

theorem findAndToggleList_invol (target : List String) :
    ∀ (l : List JsonNode) (cur : List String),
      findAndToggleList target (findAndToggleList target l cur) cur = l
  | [], cur => by rw [findAndToggleList, findAndToggleList]
  | c :: rest, cur => by
      rw [findAndToggleList, findAndToggleList]
      rw [findAndToggle_key target c (childNodePath c.key cur)]
      rw [findAndToggle_invol target c (childNodePath c.key cur)]
      rw [findAndToggleList_invol target rest cur]

end

mutual

theorem flipAt_id (target : List String) :
    ∀ (n : JsonNode) (cur : List String),
      countPath target n cur = 0 → flipAt target n cur = n
  | .mk k v t p d e i (some cs), cur => fun h => by
      have hc : ¬(cur = target) := by
        intro hc
        simp [countPath, hc] at h
      have h2 : countPathList target cs cur = 0 := by
        simpa [countPath, hc] using h
      simp only [flipAt, if_neg hc]
      rw [flipAtList_id target cs cur h2]
  | .mk k v t p d e i none, cur => fun h => by
      have hc : ¬(cur = target) := by
        intro hc
        simp [countPath, hc] at h
      simp only [flipAt, if_neg hc]

theorem flipAtList_id (target : List String) :
    ∀ (l : List JsonNode) (cur : List String),
      countPathList target l cur = 0 → flipAtList target l cur = l
  | [], cur => fun _ => by rw [flipAtList]
  | c :: rest, cur => fun h => by
      have h1 : countPath target c (childNodePath c.key cur) = 0 ∧
          countPathList target rest cur = 0 := by
        simp only [countPathList] at h
        omega
      rw [flipAtList, flipAt_id target c _ h1.1, flipAtList_id target rest cur h1.2]

end

mutual

theorem findAndToggle_eq_flipAt (target : List String) :
    ∀ (n : JsonNode) (cur : List String),
      countPath target n cur ≤ 1 → findAndToggle target n cur = flipAt target n cur
  | .mk k v t p d e i (some cs), cur => fun h => by
      by_cases hc : cur = target
      · have h2 : countPathList target cs cur = 0 := by
          simp only [countPath, if_pos hc] at h
          omega
        simp only [findAndToggle, flipAt, if_pos hc]
        rw [flipAtList_id target cs cur h2]
      · have h2 : countPathList target cs cur ≤ 1 := by
          simpa [countPath, hc] using h
        simp only [findAndToggle, flipAt, if_neg hc]
        rw [findAndToggleList_eq_flipAt target cs cur h2]
  | .mk k v t p d e i none, cur => fun _ => by
      by_cases hc : cur = target
      · simp only [findAndToggle, flipAt, if_pos hc]
      · simp only [findAndToggle, flipAt, if_neg hc]

theorem findAndToggleList_eq_flipAt (target : List String) :
    ∀ (l : List JsonNode) (cur : List String),
      countPathList target l cur ≤ 1 →
        findAndToggleList target l cur = flipAtList target l cur
  | [], cur => fun _ => by rw [findAndToggleList, flipAtList]
  | c :: rest, cur => fun h => by
      have h1 : countPath target c (childNodePath c.key cur) ≤ 1 ∧
          countPathList target rest cur ≤ 1 := by
        simp only [countPathList] at h
        omega
      rw [findAndToggleList, flipAtList,
        findAndToggle_eq_flipAt target c _ h1.1,
        findAndToggleList_eq_flipAt target rest cur h1.2]

end

/-- C9: when the target path identifies at most one node of the tree,
toggleNodeAtPath equals the transform that flips `isExpanded` at
exactly the node with that path and copies everything else unchanged;
and applying the toggle twice restores the original tree (all
`isExpanded` flags included). -/
theorem toggle_flips_exactly (n : JsonNode) (p : List String)
    (h : countPath p n [] ≤ 1) :
    toggleNodeAtPath n p = flipAt p n [] ∧
    toggleNodeAtPath (toggleNodeAtPath n p) p = n := by
  constructor
  · rw [toggleNodeAtPath, deepCopy_id]
    exact findAndToggle_eq_flipAt p n [] h
  · rw [toggleNodeAtPath, toggleNodeAtPath, deepCopy_id, deepCopy_id]
    exact findAndToggle_invol p n []

/-- Witness for toggle_flips_exactly at a concrete tree and path. -/
theorem toggle_flips_exactly_witness :
    countPath ["a"] toggleDemoTree [] ≤ 1 ∧
    (toggleNodeAtPath toggleDemoTree ["a"] = flipAt ["a"] toggleDemoTree [] ∧
      toggleNodeAtPath (toggleNodeAtPath toggleDemoTree ["a"]) ["a"] =
        toggleDemoTree) :=
  ⟨by decide, toggle_flips_exactly toggleDemoTree ["a"] (by decide)⟩

theorem objAssign_not_contains (acc : List (String × JsonValue)) (k : String)
    (v : JsonValue) (h : ((acc.map Prod.fst).contains k) = false) :
    objAssign acc k v = acc ++ [(k, v)] := by
  induction acc with
  | nil => rw [objAssign]; rfl
  | cons he rest ih =>
      obtain ⟨k0, v0⟩ := he
      simp only [List.map_cons, List.contains_cons, Bool.or_eq_false_iff] at h
      have h0 : k0 ≠ k := by
        intro hk
        subst hk
        simp at h
      simp [objAssign, h0, ih h.2]

theorem createJsonNode_key (v : JsonValue) (key : Option String)
    (path : List String) (depth : Nat) (index : Option Nat) :
    (createJsonNode v key path depth index).key = key := by
  cases v <;> rfl

theorem reconstructObjFold_cons (c : JsonNode) (k : String)
    (hk : c.key = some k) (rest : List JsonNode)
    (acc : List (String × JsonValue)) :
    reconstructObjFold (c :: rest) acc =
      reconstructObjFold rest (objAssign acc k (reconstructJsonFromNode c)) := by
  cases c with
  | mk kk v t p d e i cc =>
      simp only [JsonNode.key] at hk
      subst hk
      rw [reconstructObjFold]

mutual

theorem reconstruct_create :
    ∀ (v : JsonValue) (key : Option String) (path : List String)
      (depth : Nat) (index : Option Nat),
      uniqueKeys v = true →
      reconstructJsonFromNode (createJsonNode v key path depth index) = v
  | .obj entries, key, path, depth, index => fun h => by
      have h1 : keysNodupB (entries.map Prod.fst) = true ∧
          uniqueKeysEntries entries = true := by
        simpa [uniqueKeys] using h
      simp only [createJsonNode, getJsonNodeType, reconstructJsonFromNode]
      rw [reconstruct_createObj entries (childNodePath key path) depth 0 []
        h1.2 h1.1 (fun k2 _ => by simp)]
      simp
  | .arr items, key, path, depth, index => fun h => by
      have h1 : uniqueKeysList items = true := by
        simpa [uniqueKeys] using h
      simp only [createJsonNode, getJsonNodeType, reconstructJsonFromNode]
      rw [reconstruct_createArr items (childNodePath key path) depth 0 h1]
  | .str s, key, path, depth, index => fun _ => by
      simp [createJsonNode, getJsonNodeType, reconstructJsonFromNode]
  | .num q, key, path, depth, index => fun _ => by
      simp [createJsonNode, getJsonNodeType, reconstructJsonFromNode]
  | .boolean b, key, path, depth, index => fun _ => by
      simp [createJsonNode, getJsonNodeType, reconstructJsonFromNode]
  | .null, key, path, depth, index => fun _ => by
      simp [createJsonNode, getJsonNodeType, reconstructJsonFromNode]

theorem reconstruct_createObj :
    ∀ (entries : List (String × JsonValue)) (path : List String)
      (depth idx : Nat) (acc : List (String × JsonValue)),
      uniqueKeysEntries entries = true →
      keysNodupB (entries.map Prod.fst) = true →
      (∀ k2, ((entries.map Prod.fst).contains k2) = true →
        ((acc.map Prod.fst).contains k2) = false) →
      reconstructObjFold (createObjChildren entries path depth idx) acc =
        acc ++ entries
  | [], _, _, _, acc => fun _ _ _ => by
      rw [createObjChildren, reconstructObjFold]
      simp
  | (k, v) :: rest, path, depth, idx, acc => fun h1 h2 h3 => by
      have hu : uniqueKeys v = true ∧ uniqueKeysEntries rest = true := by
        simpa [uniqueKeysEntries] using h1
      have hn : ((rest.map Prod.fst).contains k) = false ∧
          keysNodupB (rest.map Prod.fst) = true := by
        simpa [keysNodupB] using h2
      have hacck : ((acc.map Prod.fst).contains k) = false :=
        h3 k (by simp only [List.map_cons, List.contains_cons,
          beq_self_eq_true, Bool.true_or])
      have h4 : ∀ k2, ((rest.map Prod.fst).contains k2) = true →
          ((((acc ++ [(k, v)]).map Prod.fst)).contains k2) = false := by
        intro k2 hk2
        have hk2ne : (k2 == k) = false := by
          rcases hbeq : (k2 == k) with _ | _
          · rfl
          · exfalso
            have hkk : k2 = k := by simpa using hbeq
            subst hkk
            rw [hk2] at hn
            exact absurd hn.1 (by simp)
        have hk2acc : ((acc.map Prod.fst).contains k2) = false :=
          h3 k2 (by simp only [List.map_cons, List.contains_cons, hk2,
            Bool.or_true])
        rw [List.map_append]
        refine contains_append_false _ _ _ hk2acc ?_
        simpa using hk2ne
      rw [createObjChildren,
        reconstructObjFold_cons _ k (createJsonNode_key v (some k) path
          (depth + 1) (some idx)) _ _,
        reconstruct_create v (some k) path (depth + 1) (some idx) hu.1,
        objAssign_not_contains acc k v hacck,
        reconstruct_createObj rest path depth (idx + 1) (acc ++ [(k, v)])
          hu.2 hn.2 h4]
      simp

theorem reconstruct_createArr :
    ∀ (items : List JsonValue) (path : List String) (depth idx : Nat),
      uniqueKeysList items = true →
      reconstructArrMap (createArrChildren items path depth idx) = items
  | [], _, _, _ => fun _ => by rw [createArrChildren, reconstructArrMap]
  | v :: rest, path, depth, idx => fun h => by
      have hu : uniqueKeys v = true ∧ uniqueKeysList rest = true := by
        simpa [uniqueKeysList] using h
      rw [createArrChildren, reconstructArrMap,
        reconstruct_create v (some (toString idx)) path (depth + 1)
          (some idx) hu.1,
        reconstruct_createArr rest path depth (idx + 1) hu.2]

end

/-- C1: for every JsonValue whose objects have pairwise-distinct keys
— exactly the values `JSON.parse` produces — reconstructJsonFromNode
inverts createJsonNode on the root node. -/
theorem reconstruct_roundTrip (v : JsonValue) (h : uniqueKeys v = true) :
    reconstructJsonFromNode (createJsonNode v none [] 0 none) = v :=
  reconstruct_create v none [] 0 none h

/-- Witness for reconstruct_roundTrip at a concrete document. -/
theorem reconstruct_roundTrip_witness :
    uniqueKeys (JsonValue.obj
      [("a", .num 1), ("b", .arr [.str "x", .null])]) = true ∧
    reconstructJsonFromNode (createJsonNode
      (JsonValue.obj [("a", .num 1), ("b", .arr [.str "x", .null])])
      none [] 0 none) =
      JsonValue.obj [("a", .num 1), ("b", .arr [.str "x", .null])] :=
  ⟨rfl, reconstruct_roundTrip _ rfl⟩

theorem toDigitsCore_len_ge (b : Nat) :
    ∀ (f n : Nat) (l : List Char),
      l.length ≤ (Nat.toDigitsCore b f n l).length := by
  intro f
  induction f with
  | zero => intro n l; simp [Nat.toDigitsCore]
  | succ f ih =>
      intro n l
      rw [Nat.toDigitsCore]
      split
      · simp
      · exact le_trans (by simp) (ih _ _)

theorem natToString_ne_empty (n : Nat) : toString n ≠ "" := by
  intro hc
  have h1 : (Nat.toDigits 10 n).length = 0 := by
    have h2 : Nat.repr n = "" := hc
    simp only [Nat.repr, List.asString] at h2
    have h3 := congrArg String.data h2
    simpa using h3
  have h3 : 1 ≤ (Nat.toDigits 10 n).length := by
    rw [Nat.toDigits, Nat.toDigitsCore]
    split
    · simp
    · exact le_trans (by simp) (toDigitsCore_len_ge 10 _ _ _)
  omega

theorem createJsonNode_path (v : JsonValue) (key : Option String)
    (path : List String) (depth : Nat) (index : Option Nat) :
    (createJsonNode v key path depth index).path = childNodePath key path := by
  cases v <;> rfl

theorem createJsonNode_depth (v : JsonValue) (key : Option String)
    (path : List String) (depth : Nat) (index : Option Nat) :
    (createJsonNode v key path depth index).depth = depth := by
  cases v <;> rfl

theorem shapeChildren_cons (c : JsonNode) (k : String) (hk : c.key = some k)
    (ppath : List String) (pdepth : Nat) (rest : List JsonNode) :
    shapeChildren ppath pdepth (c :: rest) =
      ((c.path == ppath ++ [k]) && (c.depth == pdepth + 1) && shapeOK c &&
        shapeChildren ppath pdepth rest) := by
  cases c with
  | mk kk v t p d e i cc =>
      simp only [JsonNode.key] at hk
      subst hk
      rw [shapeChildren]
      rfl

mutual

theorem create_shapeOK :
    ∀ (v : JsonValue) (key : Option String) (path : List String)
      (depth : Nat) (index : Option Nat),
      keysNonempty v = true →
      (childNodePath key path).length = depth →
      shapeOK (createJsonNode v key path depth index) = true
  | .obj entries, key, path, depth, index => fun h hlen => by
      have h1 : ((entries.map Prod.fst).all (fun k => k ≠ "")) = true ∧
          keysNonemptyEntries entries = true := by
        simpa [keysNonempty] using h
      simp only [createJsonNode, getJsonNodeType, shapeOK]
      rw [createObj_shapeChildren entries (childNodePath key path) depth 0
        h1.1 h1.2 hlen]
      simp [hlen]
  | .arr items, key, path, depth, index => fun h hlen => by
      have h1 : keysNonemptyList items = true := by
        simpa [keysNonempty] using h
      simp only [createJsonNode, getJsonNodeType, shapeOK]
      rw [createArr_shapeChildren items (childNodePath key path) depth 0
        h1 hlen]
      simp [hlen]
  | .str s, key, path, depth, index => fun _ hlen => by
      simp [createJsonNode, getJsonNodeType, shapeOK, hlen]
  | .num q, key, path, depth, index => fun _ hlen => by
      simp [createJsonNode, getJsonNodeType, shapeOK, hlen]
  | .boolean b, key, path, depth, index => fun _ hlen => by
      simp [createJsonNode, getJsonNodeType, shapeOK, hlen]
  | .null, key, path, depth, index => fun _ hlen => by
      simp [createJsonNode, getJsonNodeType, shapeOK, hlen]

theorem createObj_shapeChildren :
    ∀ (entries : List (String × JsonValue)) (path2 : List String)
      (depth idx : Nat),
      ((entries.map Prod.fst).all (fun k => k ≠ "")) = true →
      keysNonemptyEntries entries = true →
      path2.length = depth →
      shapeChildren path2 depth (createObjChildren entries path2 depth idx) =
        true
  | [], _, _, _ => fun _ _ _ => by rw [createObjChildren, shapeChildren]
  | (k, v) :: rest, path2, depth, idx => fun h1 h2 hlen => by
      have hk : k ≠ "" ∧ ((rest.map Prod.fst).all (fun k => k ≠ "")) = true := by
        simpa using h1
      have hv : keysNonempty v = true ∧ keysNonemptyEntries rest = true := by
        simpa [keysNonemptyEntries] using h2
      have hcp : childNodePath (some k) path2 = path2 ++ [k] := by
        simp [childNodePath, hk.1]
      rw [createObjChildren,
        shapeChildren_cons _ k (createJsonNode_key v (some k) path2
          (depth + 1) (some idx)) _ _ _,
        createJsonNode_path, createJsonNode_depth, hcp,
        create_shapeOK v (some k) path2 (depth + 1) (some idx) hv.1
          (by simp [hcp, hlen]),
        createObj_shapeChildren rest path2 depth (idx + 1) hk.2 hv.2 hlen]
      simp

theorem createArr_shapeChildren :
    ∀ (items : List JsonValue) (path2 : List String) (depth idx : Nat),
      keysNonemptyList items = true →
      path2.length = depth →
      shapeChildren path2 depth (createArrChildren items path2 depth idx) =
        true
  | [], _, _, _ => fun _ _ => by rw [createArrChildren, shapeChildren]
  | v :: rest, path2, depth, idx => fun h hlen => by
      have hv : keysNonempty v = true ∧ keysNonemptyList rest = true := by
        simpa [keysNonemptyList] using h
      have hcp : childNodePath (some (toString idx)) path2 =
          path2 ++ [toString idx] := by
        simp [childNodePath, natToString_ne_empty idx]
      rw [createArrChildren,
        shapeChildren_cons _ (toString idx)
          (createJsonNode_key v (some (toString idx)) path2 (depth + 1)
            (some idx)) _ _ _,
        createJsonNode_path, createJsonNode_depth, hcp,
        create_shapeOK v (some (toString idx)) path2 (depth + 1) (some idx)
          hv.1 (by simp [hcp, hlen]),
        createArr_shapeChildren rest path2 depth (idx + 1) hv.2 hlen]
      simp

end

/-- C2 (amended): for a JsonValue none of whose object keys is the
empty string, every node of the created tree has depth equal to its
path length, children present exactly for objects and arrays, and
every child path equal to the parent path extended by the child's
key. -/
theorem createJsonNode_shape (v : JsonValue) (h : keysNonempty v = true) :
    shapeOK (createJsonNode v none [] 0 none) = true :=
  create_shapeOK v none [] 0 none h rfl

/-- Witness for createJsonNode_shape at a concrete document. -/
theorem createJsonNode_shape_witness :
    keysNonempty (JsonValue.obj
      [("a", .arr [.str "x"]), ("b", .null)]) = true ∧
    shapeOK (createJsonNode
      (JsonValue.obj [("a", .arr [.str "x"]), ("b", .null)])
      none [] 0 none) = true :=
  ⟨rfl, createJsonNode_shape _ rfl⟩

/-- C2 counterexample: in the tree of `{"": true}` the child node has
depth 1 but path [] (JS truthiness drops the empty-string key from the
path), so depth = len(path) fails. -/
theorem tree_shape_counterexample :
    ((allNodes emptyKeyTree).map (fun m => (m.depth, m.path))) =
      [(0, []), (1, [])] ∧
    ((allNodes emptyKeyTree).all (fun m => m.depth == m.path.length)) =
      false :=
  ⟨rfl, rfl⟩

mutual

theorem searchTraverse_flatMap (q : String) :
    ∀ (n : JsonNode), searchTraverse q n = (allNodes n).flatMap (nodeMatches q)
  | .mk k v t p d e i (some cs) => by
      rw [searchTraverse, allNodes]
      simp only [List.flatMap_cons]
      rw [searchTraverseList_flatMap q cs]
  | .mk k v t p d e i none => by
      rw [searchTraverse, allNodes]
      simp

theorem searchTraverseList_flatMap (q : String) :
    ∀ (l : List JsonNode),
      searchTraverseList q l = (allNodesList l).flatMap (nodeMatches q)
  | [] => by rw [searchTraverseList, allNodesList]; rfl
  | c :: rest => by
      rw [searchTraverseList, allNodesList]
      simp only [List.flatMap_append]
      rw [searchTraverse_flatMap q c, searchTraverseList_flatMap q rest]

end

theorem nodeMatches_path (q : String) (n : JsonNode) (r : SearchResult)
    (h : r ∈ nodeMatches q n) : r.path = n.path := by
  cases n with
  | mk k0 v t p d e i c =>
      rcases k0 with _ | k <;>
        simp only [nodeMatches, nodeKeyMatch, nodeValueMatch, JsonNode.key,
          JsonNode.path, JsonNode.value, JsonNode.type,
          List.mem_append] at h ⊢ <;>
        split_ifs at h <;>
        ((try simp_all); (try rcases h with h | h <;> subst h <;> rfl))

theorem nodeMatches_pairs_nodup (q : String) (n : JsonNode) :
    ((nodeMatches q n).map (fun r => (r.path, r.matchType))).Nodup := by
  cases n with
  | mk k0 v t p d e i c =>
      rcases k0 with _ | k <;>
        simp only [nodeMatches, nodeKeyMatch, nodeValueMatch, JsonNode.key,
          JsonNode.path, JsonNode.value, JsonNode.type] <;>
        split_ifs <;> simp

theorem flatMap_pairs_nodup (q : String) :
    ∀ (l : List JsonNode), (l.map JsonNode.path).Nodup →
      ((l.flatMap (nodeMatches q)).map
        (fun r => (r.path, r.matchType))).Nodup := by
  intro l
  induction l with
  | nil => simp
  | cons n rest ih =>
      intro h
      simp only [List.map_cons, List.nodup_cons] at h
      simp only [List.flatMap_cons, List.map_append, List.nodup_append]
      refine ⟨nodeMatches_pairs_nodup q n, ih h.2, ?_⟩
      intro a ha hb
      simp only [List.mem_map] at ha hb
      obtain ⟨r1, hr1, hr1a⟩ := ha
      obtain ⟨r2, hr2, hr2a⟩ := hb
      have hp1 : r1.path = n.path := nodeMatches_path q n r1 hr1
      obtain ⟨m, hm, hr2m⟩ := List.mem_flatMap.mp hr2
      have hp2 : r2.path = m.path := nodeMatches_path q m r2 hr2m
      apply h.1
      have hpaths : n.path = m.path := by
        have := hr2a ▸ hr1a
        have hfst := congrArg Prod.fst this
        simp only at hfst
        rw [← hp1, ← hp2, hfst]
      rw [hpaths]
      exact List.mem_map_of_mem JsonNode.path hm

/-- C3 (amended): on a tree whose nodes have pairwise-distinct paths,
no two searchInJson results agree on both path and matchType: a node
whose key and stringified value both contain the query contributes two
results — one key match and one value match — with the same path, and
that is the only way a path can repeat. -/
theorem searchInJson_dedup (n : JsonNode) (query : String)
    (h : ((allNodes n).map JsonNode.path).Nodup) :
    ((searchInJson n query).map (fun r => (r.path, r.matchType))).Nodup := by
  rw [searchInJson, searchTraverse_flatMap]
  exact flatMap_pairs_nodup _ _ h

/-- Witness for searchInJson_dedup at a concrete tree and query. -/
theorem searchInJson_dedup_witness :
    ((allNodes (createJsonNode (.obj [("alpha", .str "beta")])
      none [] 0 none)).map JsonNode.path).Nodup ∧
    ((searchInJson (createJsonNode (.obj [("alpha", .str "beta")])
        none [] 0 none) "a").map
      (fun r => (r.path, r.matchType))).Nodup :=
  ⟨by decide, searchInJson_dedup _ "a" (by decide)⟩

/-- C3 counterexample: searching `{"a":"a"}` for "a" yields two
results with the identical path ["a"] — one key match, one value
match — so the result list does deduplicate neither by path nor at
all. -/
theorem searchInJson_dedup_counterexample :
    ((searchInJson (createJsonNode (.obj [("a", .str "a")]) none [] 0 none)
        "a").map SearchResult.path) = [["a"], ["a"]] ∧
    ¬ ((searchInJson (createJsonNode (.obj [("a", .str "a")]) none [] 0 none)
        "a").map SearchResult.path).Nodup :=
  ⟨rfl, by decide⟩

theorem nodeMatches_length_le (q : String) (n : JsonNode) :
    (nodeMatches q n).length ≤ 2 := by
  cases n with
  | mk k0 v t p d e i c =>
      rcases k0 with _ | k <;>
        simp only [nodeMatches, nodeKeyMatch, nodeValueMatch, JsonNode.key,
          JsonNode.path, JsonNode.value, JsonNode.type] <;>
        split_ifs <;> simp

theorem asyncSearchLoop_length_le (q : String) (maxResults : Nat) :
    ∀ (queue : List JsonNode) (results : List SearchResult),
      (asyncSearchLoop q maxResults queue results).length ≤
        Nat.max results.length (maxResults + 1)
  | [], results => by
      rw [asyncSearchLoop]
      exact Nat.le_max_left _ _
  | n :: rest, results => by
      rw [asyncSearchLoop]
      split_ifs with h
      · refine le_trans
          (asyncSearchLoop_length_le q maxResults (rest ++ childrenList n)
            (results ++ nodeMatches q n)) ?_
        have h3 : (results ++ nodeMatches q n).length ≤ maxResults + 1 := by
          have h4 := nodeMatches_length_le q n
          simp only [List.length_append]
          omega
        exact Nat.max_le.mpr
          ⟨le_trans h3 (Nat.le_max_right _ _), Nat.le_max_right _ _⟩
      · exact Nat.le_max_left _ _
termination_by queue _ => nodesSize queue
decreasing_by
  apply queue_step_lt

/-- C4 (amended): the chunked asynchronous substring search returns at
most 1001 results — the 1000 cap can be overshot by exactly one when a
node's key match reaches the cap and its value also matches — while
the synchronous searchInJson applies no cap at all (see the
counterexample). -/
theorem searchInJsonAsyncText_le_1001 (n : JsonNode) (query : String) :
    (searchInJsonAsyncText n query 1000).length ≤ 1001 := by
  rw [searchInJsonAsyncText]
  have h := asyncSearchLoop_length_le (toLowerStr (jsTrim query)) 1000 [n] []
  simpa using h

set_option maxRecDepth 4000 in
/-- C4 counterexample: on an array of 1001 matching strings the
synchronous searchInJson returns 1001 results, exceeding the claimed
1000-result cap. -/
theorem search_cap_counterexample :
    (searchInJson wideTree "a").length = 1001 ∧
    1000 < (searchInJson wideTree "a").length := by
  have h : (searchInJson wideTree "a").length = 1001 := by rfl
  exact ⟨h, by rw [h]; norm_num⟩

theorem allNodesList_append :
    ∀ (l1 l2 : List JsonNode),
      allNodesList (l1 ++ l2) = allNodesList l1 ++ allNodesList l2
  | [], l2 => by rw [allNodesList]; rfl
  | c :: rest, l2 => by
      rw [List.cons_append, allNodesList, allNodesList,
        allNodesList_append rest l2, List.append_assoc]

theorem allNodesList_singleton (n : JsonNode) : allNodesList [n] = allNodes n := by
  rw [allNodesList, allNodesList]
  simp

theorem allNodes_eq_cons (n : JsonNode) :
    allNodes n = n :: allNodesList (childrenList n) := by
  cases n with
  | mk k v t p d e i c =>
      cases c with
      | some cs => rw [allNodes]; rfl
      | none =>
          rw [allNodes]
          simp [childrenList, JsonNode.children, allNodesList]

theorem bfsSearch_nil (q : String) : bfsSearch q [] = [] := by
  rw [bfsSearch]

theorem bfsSearch_cons (q : String) (n : JsonNode) (rest : List JsonNode) :
    bfsSearch q (n :: rest) =
      nodeMatches q n ++ bfsSearch q (rest ++ childrenList n) := by
  rw [bfsSearch]

theorem bfs_flatMap_length (q : String) :
    ∀ (queue : List JsonNode),
      (bfsSearch q queue).length =
        ((allNodesList queue).flatMap (nodeMatches q)).length
  | [] => by rw [bfsSearch_nil, allNodesList]; rfl
  | n :: rest => by
      rw [bfsSearch_cons, allNodesList, allNodes_eq_cons n]
      have ih := bfs_flatMap_length q (rest ++ childrenList n)
      rw [allNodesList_append] at ih
      simp only [List.length_append, List.flatMap_cons, List.flatMap_append,
        List.length_append] at ih ⊢
      omega
termination_by queue => nodesSize queue
decreasing_by
  apply queue_step_lt

theorem asyncSearchLoop_spec (q : String) (mr : Nat) :
    ∀ (queue : List JsonNode) (results : List SearchResult),
      results.length + (bfsSearch q queue).length ≤ mr →
      asyncSearchLoop q mr queue results = results ++ bfsSearch q queue
  | [], results => fun _ => by
      rw [asyncSearchLoop, bfsSearch_nil]
      simp
  | n :: rest, results => fun h => by
      rw [asyncSearchLoop]
      rw [bfsSearch_cons] at h ⊢
      split_ifs with hlt
      · rw [asyncSearchLoop_spec q mr (rest ++ childrenList n)
          (results ++ nodeMatches q n) (by
            simp only [List.length_append] at h ⊢
            omega)]
        simp [List.append_assoc]
      · have hz : (nodeMatches q n ++
            bfsSearch q (rest ++ childrenList n)).length = 0 := by
          simp only [not_lt] at hlt
          omega
        rw [List.length_eq_zero] at hz
        rw [hz]
        simp
termination_by queue _ => nodesSize queue
decreasing_by
  apply queue_step_lt

theorem contains_false_of_not_mem (l : List String) (x : String)
    (h : x ∉ l) : l.contains x = false := by
  induction l with
  | nil => rfl
  | cons a rest ih =>
      simp only [List.mem_cons, not_or] at h
      simp only [List.contains_cons, Bool.or_eq_false_iff,
        beq_eq_false_iff_ne]
      exact ⟨h.1, ih h.2⟩

theorem regularSearchLoop_spec (q : String) (mr : Nat) :
    ∀ (queue : List JsonNode) (visited : List String)
      (results : List SearchResult),
      (visited ++ (allNodesList queue).map
        (fun m => String.intercalate "." m.path)).Nodup →
      results.length + (bfsSearch q queue).length ≤ mr →
      regularSearchLoop q mr queue visited results =
        results ++ bfsSearch q queue
  | [], visited, results => fun _ _ => by
      rw [regularSearchLoop, bfsSearch_nil]
      simp
  | n :: rest, visited, results => fun hnd h => by
      rw [regularSearchLoop]
      rw [bfsSearch_cons] at h ⊢
      by_cases hlt : results.length < mr
      · rw [if_pos hlt]
        -- the node's path key is fresh: it heads the queue part of the
        -- Nodup invariant, so it is not in `visited`
        have hdisj := (List.nodup_append.mp hnd).2.2
        have hmem : String.intercalate "." n.path ∈
            (allNodesList (n :: rest)).map
              (fun m => String.intercalate "." m.path) := by
          rw [allNodesList, allNodes_eq_cons n]
          simp
        have hnotv : String.intercalate "." n.path ∉ visited := by
          intro hv
          exact hdisj hv hmem
        rw [if_neg (by
          rw [contains_false_of_not_mem _ _ hnotv]
          simp)]
        have hnm : nodeMatches q n = nodeKeyMatch q n ++ nodeValueMatch q n :=
          rfl
        by_cases hb1 : mr ≤ (results ++ nodeKeyMatch q n).length
        · rw [if_pos hb1]
          have hz : (nodeValueMatch q n).length = 0 ∧
              (bfsSearch q (rest ++ childrenList n)).length = 0 := by
            rw [hnm] at h
            simp only [List.length_append] at h hb1
            omega
          have hzv := List.length_eq_zero.mp hz.1
          have hzb := List.length_eq_zero.mp hz.2
          rw [hnm, hzv, hzb]
          simp
        · rw [if_neg hb1]
          by_cases hb2 : mr ≤
              ((results ++ nodeKeyMatch q n) ++ nodeValueMatch q n).length
          · rw [if_pos hb2]
            have hz : (bfsSearch q (rest ++ childrenList n)).length = 0 := by
              rw [hnm] at h
              simp only [List.length_append] at h hb2
              omega
            have hzb := List.length_eq_zero.mp hz
            rw [hnm, hzb]
            simp
          · rw [if_neg hb2]
            have hnd2 : ((String.intercalate "." n.path :: visited) ++
                (allNodesList (rest ++ childrenList n)).map
                  (fun m => String.intercalate "." m.path)).Nodup := by
              have hperm :
                  (visited ++ (allNodesList (n :: rest)).map
                    (fun m => String.intercalate "." m.path)).Perm
                  ((String.intercalate "." n.path :: visited) ++
                    (allNodesList (rest ++ childrenList n)).map
                      (fun m => String.intercalate "." m.path)) := by
                rw [allNodesList, allNodes_eq_cons n, allNodesList_append]
                simp only [List.map_cons, List.map_append, List.cons_append]
                refine List.Perm.trans List.perm_middle ?_
                exact List.Perm.cons _
                  (List.Perm.append_left visited List.perm_append_comm)
              exact hperm.nodup hnd
            rw [regularSearchLoop_spec q mr (rest ++ childrenList n)
              (String.intercalate "." n.path :: visited)
              ((results ++ nodeKeyMatch q n) ++ nodeValueMatch q n)
              hnd2 (by
                rw [hnm] at h
                simp only [List.length_append] at h ⊢
                omega)]
            rw [hnm]
            simp [List.append_assoc]
      · rw [if_neg hlt]
        have hz : (nodeMatches q n ++
            bfsSearch q (rest ++ childrenList n)).length = 0 := by
          simp only [not_lt] at hlt
          omega
        rw [List.length_eq_zero] at hz
        rw [hz]
        simp
termination_by queue _ _ => nodesSize queue
decreasing_by
  apply queue_step_lt

theorem streamResults_append (a b : List StreamMsg) :
    streamResults (a ++ b) = streamResults a ++ streamResults b := by
  simp [streamResults]

theorem streamResults_map_result (l : List SearchResult) :
    streamResults (l.map StreamMsg.result) = l := by
  induction l with
  | nil => rfl
  | cons r rest ih => simp [streamResults] at ih ⊢; exact ih

theorem streamResults_complete : streamResults [StreamMsg.complete] = [] := rfl

theorem completeCount_append (a b : List StreamMsg) :
    completeCount (a ++ b) = completeCount a + completeCount b := by
  simp [completeCount]

theorem completeCount_map_result (l : List SearchResult) :
    completeCount (l.map StreamMsg.result) = 0 := by
  induction l with
  | nil => rfl
  | cons r rest ih =>
      simp only [completeCount, List.countP_cons] at ih ⊢
      simp [ih]

theorem pushStreamResult_results (sb : Nat) (r : SearchResult)
    (batch : List SearchResult) (msgs : List StreamMsg) :
    streamResults (pushStreamResult sb r batch msgs).2 ++
        (pushStreamResult sb r batch msgs).1 =
      streamResults msgs ++ batch ++ [r] ∧
    completeCount (pushStreamResult sb r batch msgs).2 =
      completeCount msgs := by
  rw [pushStreamResult]
  split_ifs with h
  · constructor
    · rw [streamResults_append, streamResults_map_result]
      simp
    · rw [completeCount_append, completeCount_map_result]
      simp
  · exact ⟨by simp, rfl⟩

theorem pushStreamAll_spec (sb : Nat) :
    ∀ (rs batch : List SearchResult) (msgs : List StreamMsg),
      streamResults (pushStreamAll sb rs (batch, msgs)).2 ++
          (pushStreamAll sb rs (batch, msgs)).1 =
        streamResults msgs ++ batch ++ rs ∧
      completeCount (pushStreamAll sb rs (batch, msgs)).2 =
        completeCount msgs := by
  intro rs
  induction rs with
  | nil => intro batch msgs; simp [pushStreamAll]
  | cons r rest ih =>
      intro batch msgs
      have hstep := pushStreamResult_results sb r batch msgs
      have hfold : pushStreamAll sb (r :: rest) (batch, msgs) =
          pushStreamAll sb rest (pushStreamResult sb r batch msgs) := by
        simp [pushStreamAll]
      rw [hfold]
      rcases hEq : pushStreamResult sb r batch msgs with ⟨b2, m2⟩
      rw [hEq] at hstep
      simp only at hstep
      have ih2 := ih b2 m2
      refine ⟨?_, ?_⟩
      · rw [ih2.1, hstep.1]
        simp
      · rw [ih2.2, hstep.2]

theorem streamLoop_completeCount (q : String) (mr sb : Nat) :
    ∀ (queue : List JsonNode) (found : Nat) (batch : List SearchResult)
      (msgs : List StreamMsg),
      completeCount (streamLoop q mr sb queue found batch msgs) =
        completeCount msgs + 1
  | [], found, batch, msgs => by
      rw [streamLoop, completeCount_append, completeCount_append,
        completeCount_map_result]
      simp [completeCount]
  | n :: rest, found, batch, msgs => by
      rw [streamLoop]
      split_ifs with hlt
      · rw [streamLoop_completeCount q mr sb (rest ++ childrenList n)
          (found + (nodeMatches q n).length)
          (pushStreamAll sb (nodeMatches q n) (batch, msgs)).1
          (pushStreamAll sb (nodeMatches q n) (batch, msgs)).2,
          (pushStreamAll_spec sb (nodeMatches q n) batch msgs).2]
      · rw [completeCount_append, completeCount_append,
          completeCount_map_result]
        simp [completeCount]
termination_by queue _ _ _ => nodesSize queue
decreasing_by
  apply queue_step_lt

theorem streamLoop_spec (q : String) (mr sb : Nat) :
    ∀ (queue : List JsonNode) (found : Nat) (batch : List SearchResult)
      (msgs : List StreamMsg),
      found + (bfsSearch q queue).length ≤ mr →
      streamResults (streamLoop q mr sb queue found batch msgs) =
        streamResults msgs ++ batch ++ bfsSearch q queue
  | [], found, batch, msgs => fun _ => by
      rw [streamLoop, bfsSearch_nil, streamResults_append,
        streamResults_append, streamResults_map_result,
        streamResults_complete]
  | n :: rest, found, batch, msgs => fun h => by
      rw [streamLoop]
      rw [bfsSearch_cons] at h ⊢
      split_ifs with hlt
      · rw [streamLoop_spec q mr sb (rest ++ childrenList n)
          (found + (nodeMatches q n).length)
          (pushStreamAll sb (nodeMatches q n) (batch, msgs)).1
          (pushStreamAll sb (nodeMatches q n) (batch, msgs)).2
          (by simp only [List.length_append] at h; omega)]
        have hp := (pushStreamAll_spec sb (nodeMatches q n) batch msgs).1
        rw [← List.append_assoc, hp]
      · have hz : (nodeMatches q n ++
            bfsSearch q (rest ++ childrenList n)).length = 0 := by
          simp only [not_lt] at hlt
          omega
        rw [List.length_eq_zero] at hz
        rw [hz, streamResults_append, streamResults_append,
          streamResults_map_result, streamResults_complete]
termination_by queue _ _ _ => nodesSize queue
decreasing_by
  apply queue_step_lt

/-- C5 (amended): the regular streaming search always emits exactly
one isComplete:true sentinel; and whenever the trimmed query is
nonempty (the non-streaming handler short-circuits empty queries, the
streaming one does not), the node path keys are pairwise distinct (the
non-streaming handler deduplicates by path key, the streaming one does
not), and the total number of matches stays within the 1000 cap (the
two loops treat the cap boundary differently), the streamed results
equal the non-streaming handleRegularSearch results, in order. -/
theorem streaming_matches_search (n : JsonNode) (query : String)
    (hq : jsTrim query ≠ "")
    (hnd : ((allNodes n).map
      (fun m => String.intercalate "." m.path)).Nodup)
    (hcap : ((allNodes n).flatMap
      (nodeMatches (toLowerStr query))).length ≤ 1000) :
    completeCount (handleRegularSearchStream n query) = 1 ∧
    streamResults (handleRegularSearchStream n query) =
      handleRegularSearch n query := by
  have hlen : (bfsSearch (toLowerStr query) [n]).length ≤ 1000 := by
    rw [bfs_flatMap_length, allNodesList_singleton]
    exact hcap
  constructor
  · rw [handleRegularSearchStream, streamLoop_completeCount]
    rfl
  · rw [handleRegularSearchStream, handleRegularSearch, if_neg hq]
    rw [streamLoop_spec _ _ _ _ _ _ _ (by simpa using hlen)]
    rw [regularSearchLoop_spec _ _ _ _ _
      (by simpa [allNodesList_singleton] using hnd)
      (by simpa using hlen)]
    rfl

/-- Witness for streaming_matches_search at a concrete tree and
query. -/
theorem streaming_matches_search_witness :
    jsTrim "alpha" ≠ "" ∧
    ((allNodes (createJsonNode (.obj [("alpha", .str "beta")])
      none [] 0 none)).map
        (fun m => String.intercalate "." m.path)).Nodup ∧
    ((allNodes (createJsonNode (.obj [("alpha", .str "beta")])
      none [] 0 none)).flatMap
        (nodeMatches (toLowerStr "alpha"))).length ≤ 1000 ∧
    (completeCount (handleRegularSearchStream
        (createJsonNode (.obj [("alpha", .str "beta")]) none [] 0 none)
        "alpha") = 1 ∧
      streamResults (handleRegularSearchStream
          (createJsonNode (.obj [("alpha", .str "beta")]) none [] 0 none)
          "alpha") =
        handleRegularSearch
          (createJsonNode (.obj [("alpha", .str "beta")]) none [] 0 none)
          "alpha") :=
  ⟨by decide, by decide, by decide,
    streaming_matches_search _ "alpha" (by decide) (by decide) (by decide)⟩

/-- C5 counterexample: on the empty query the non-streaming handler
short-circuits to no results, while the streaming handler — which has
no empty-query check — streams the root value match, so the streamed
set differs from the SEARCH result set. -/
theorem streaming_counterexample :
    handleRegularSearch tinyStrTree "" = [] ∧
    (streamResults (handleRegularSearchStream tinyStrTree "")).length = 1 := by
  constructor
  · rw [handleRegularSearch, if_pos (show jsTrim "" = "" from rfl)]
  · rw [handleRegularSearchStream,
      streamLoop_spec _ _ _ _ _ _ _ (by
        rw [bfs_flatMap_length, allNodesList_singleton]
        decide)]
    simp only [streamResults, List.filterMap_nil, List.nil_append]
    rw [bfs_flatMap_length, allNodesList_singleton]
    decide

/-- C6 (amended): when a query accepted as valid JSONPath fails during
evaluation, the worker-side handleSearch falls back to the substring
search (handleRegularSearch) on the same query and replies with its
results, never surfacing the error; the main-thread searchInJsonAsync,
however, returns the empty list on the same failure instead of its own
substring results (its catch block reads "Fall back to empty results
if JSONPath fails"). -/
theorem jsonpath_failure_fallback (n : JsonNode) (query : String)
    (e : String) (hq : strStartsWith (jsTrim query) "$" = true) :
    handleSearch n query true (.error e) = handleRegularSearch n query ∧
    handleSearchMsgs n query true (.error e) =
      [.searchResults (handleRegularSearch n query)] ∧
    searchInJsonAsync n query 1000 true (.error e) = [] := by
  refine ⟨rfl, rfl, ?_⟩
  simp [searchInJsonAsync, hq]

/-- Witness for jsonpath_failure_fallback at a concrete tree and
query. -/
theorem jsonpath_failure_fallback_witness :
    strStartsWith (jsTrim "$a") "$" = true ∧
    (handleSearch dollarTree "$a" true (.error "boom") =
        handleRegularSearch dollarTree "$a" ∧
      handleSearchMsgs dollarTree "$a" true (.error "boom") =
        [.searchResults (handleRegularSearch dollarTree "$a")] ∧
      searchInJsonAsync dollarTree "$a" 1000 true (.error "boom") = []) :=
  ⟨by decide, jsonpath_failure_fallback dollarTree "$a" "boom" (by decide)⟩

/-- C6 counterexample: on `{"$a": true}` with query "$a" — which the
substring search does match — a JSONPath evaluation failure makes
searchInJsonAsync return the empty list, not the (nonempty) substring
result set, so the claim fails on the main-thread path. -/
theorem jsonpath_fallback_counterexample :
    searchInJsonAsync dollarTree "$a" 1000 true
      (.error "JSONPath execution failed") = [] ∧
    (searchInJsonAsyncText dollarTree "$a" 1000).length = 1 := by
  constructor
  · rfl
  · rw [searchInJsonAsyncText,
      asyncSearchLoop_spec _ _ _ _ (by
        rw [bfs_flatMap_length, allNodesList_singleton]
        decide)]
    simp only [List.nil_append]
    rw [bfs_flatMap_length, allNodesList_singleton]
    decide
